import Mathlib

/-!
Verification of the TermNova terminal-animation pipeline.

Shallow embedding of the rendering/animation core:
`src/utils/canvasRenderer.js` (`parseLines`, `generateAnimationFrames`,
the cursor logic of `drawTerminal`, the auto-scaling block),
`src/hooks/useTypingAnimation.js` (`useMultiLineTyping` and its `animate` loop),
`src/utils/gifEncoder.js` (`createGIF`).

Line texts are `List Char`; millisecond hold durations are `ℚ` (JS numbers on
the values occurring here are exact).
-/

namespace TermNova

/-- Output mode, `config.outputMode || 'typing'`. -/
inductive Mode
  | typing
  | instant
deriving DecidableEq

/-- Kind of a parsed script entry: `type: 'command'` or `type: 'output'`. -/
inductive EKind
  | command
  | output
deriving DecidableEq

/-- Parsed entry produced by `parseLines` (canvasRenderer.js 294-327). -/
structure Entry where
  kind : EKind
  text : List Char
  showPrompt : Bool
  instant : Bool
deriving DecidableEq

/-- Whitespace test backing JS `trim`/`trimStart` on script lines (the input is
split on newlines, so these four characters cover the occurring whitespace). -/
def isJsSpace (c : Char) : Bool :=
  c == ' ' || c == '\t' || c == '\n' || c == '\r'

/-- JS `String.prototype.trimStart`. -/
def trimStartL (s : List Char) : List Char :=
  s.dropWhile isJsSpace

/-- JS `String.prototype.trimEnd`. -/
def trimEndL (s : List Char) : List Char :=
  (s.reverse.dropWhile isJsSpace).reverse

/-- JS `String.prototype.trim`. -/
def trimL (s : List Char) : List Char :=
  trimEndL (trimStartL s)

/-- Loop body of `parseLines` (canvasRenderer.js 296-324), carrying the
`inInstantBlock` flag. A line whose trim is `!!` toggles the flag and is
dropped; a line whose trimStart starts with `>` becomes a command entry with
the marker and following whitespace stripped (`slice(1).trimStart()`),
`showPrompt: true`, `instant: false`; every other line becomes an output
entry with `instant: inInstantBlock`. -/
def parseLinesAux (inInstantBlock : Bool) : List (List Char) → List Entry
  | [] => []
  | line :: rest =>
    if trimL line = ['!', '!'] then
      parseLinesAux (!inInstantBlock) rest
    else if (trimStartL line).head? = some '>' then
      ⟨EKind.command, trimStartL ((trimStartL line).drop 1), true, false⟩
        :: parseLinesAux inInstantBlock rest
    else
      ⟨EKind.output, line, false, inInstantBlock⟩ :: parseLinesAux inInstantBlock rest

/-- `parseLines` (canvasRenderer.js 294-327). The source function also takes a
`promptText` argument which its body never uses, so it is omitted here. -/
def parseLines (inputLines : List (List Char)) : List Entry :=
  parseLinesAux false inputLines

/-- Display line as stored in `displayLines` and in each frame's display state
(canvasRenderer.js 423-426, 440-443). -/
structure DLine where
  text : List Char
  showPrompt : Bool
deriving DecidableEq

/-- TimelineFrame: the display lines and `cursorLineIndex` passed to
`createFrame` (canvasRenderer.js 396-407) plus the frame's hold `delay` in ms. -/
structure Frame where
  lines : List DLine
  cursor : ℕ
  delay : ℚ
deriving DecidableEq

/-- Projection of an entry to its display line once fully revealed. -/
def toDLine (e : Entry) : DLine :=
  ⟨e.text, e.showPrompt⟩

/-- Instant classification of the generator, `shouldBeInstant`
(canvasRenderer.js 421, also 390 and 436):
`(outputMode === 'instant' && !isCommand) || lineInfo.instant`. -/
def shouldBeInstant (om : Mode) (e : Entry) : Bool :=
  (om == Mode.instant && !e.showPrompt) || e.instant

/-- Hold duration of a batched instant frame (canvasRenderer.js 446-449 and the
cap at the push on 454): `min(150 + count * min(50, 200 / count), 400)`. -/
def batchDelay (n : ℕ) : ℚ :=
  min (150 + (n : ℚ) * min 50 (200 / (n : ℚ))) 400

/-- Frames pushed by the per-character typing loop (canvasRenderer.js 460-471):
`charCounter` is incremented before the test, and a snapshot is pushed when it
is divisible by `charsPerFrame` or the character is the line's last; the hold
is `Math.max(30, typingSpeed)`. -/
def typedLineFrames (d : List DLine) (e : Entry) (cc cpf : ℕ) (ts : ℚ) : List Frame :=
  (List.range e.text.length).filterMap fun k =>
    if (cc + k + 1) % cpf = 0 ∨ k + 1 = e.text.length then
      some ⟨d ++ [⟨e.text.take (k + 1), e.showPrompt⟩], d.length, max 30 ts⟩
    else none

/-- Inter-line pause frame push (canvasRenderer.js 475-481): after an entry is
finished, a 150 ms frame with the cursor advanced to the next line is pushed
exactly when entries remain. -/
def pauseFrames (d2 : List DLine) (rest2 : List Entry) : List Frame :=
  if rest2 = [] then [] else [⟨d2, d2.length, 150⟩]

/-- While loop of `generateAnimationFrames` (canvasRenderer.js 416-489),
including the final resting frame pushed after it (485-489). The display-line
array only ever grows at its end, so it is threaded as a list `d`; `cc` is
`charCounter`. The instant branch batches the maximal run of consecutive
instant entries into one frame (428-457); the typed branch runs the character
loop (459-472); after either, a 150 ms inter-line frame is pushed when entries
remain (475-481). -/
def genFramesLoop (om : Mode) (cpf : ℕ) (ts : ℚ) : List DLine → ℕ → List Entry → List Frame
  | d, _, [] => [⟨d, d.length, 2000⟩]
  | d, cc, e :: rest =>
    if shouldBeInstant om e then
      let batch := e :: rest.takeWhile (shouldBeInstant om)
      let rest2 := rest.dropWhile (shouldBeInstant om)
      let d2 := d ++ batch.map toDLine
      ⟨d2, d2.length - 1, batchDelay batch.length⟩ ::
        (pauseFrames d2 rest2 ++ genFramesLoop om cpf ts d2 cc rest2)
    else
      let d2 := d ++ [toDLine e]
      typedLineFrames d e cc cpf ts ++
        (pauseFrames d2 rest ++ genFramesLoop om cpf ts d2 (cc + e.text.length) rest)
termination_by _ _ l => l.length
decreasing_by
  all_goals simp_wf
  exact Nat.lt_succ_of_le (List.Sublist.length_le (List.dropWhile_sublist _))

/-- Frame sequence of `generateAnimationFrames` with `charsPerFrame` passed
directly: the 500 ms warm-up frame (canvasRenderer.js 410) followed by the
loop. -/
def genFrames (om : Mode) (cpf : ℕ) (ts : ℚ) (entries : List Entry) : List Frame :=
  ⟨[], 0, 500⟩ :: genFramesLoop om cpf ts [] 0 entries

/-- `typedChars` reduce (canvasRenderer.js 388-392): total text length over
entries that are not shown instantly. -/
def typedChars (om : Mode) (entries : List Entry) : ℕ :=
  entries.foldl (fun sum l => if shouldBeInstant om l then sum else sum + l.text.length) 0

/-- `charsPerFrame = Math.max(1, Math.ceil(typedChars / targetFrameCount))`
(canvasRenderer.js 393), as a Nat ceiling division. -/
def charsPerFrame (om : Mode) (targetFrameCount : ℕ) (entries : List Entry) : ℕ :=
  max 1 ((typedChars om entries + targetFrameCount - 1) / targetFrameCount)

/-- `generateAnimationFrames` (canvasRenderer.js 329-492), restricted to the
animation content of the emitted frames (the painted canvas itself is not
modelled; its display state and delay per frame are). -/
def generateAnimationFrames (om : Mode) (targetFrameCount : ℕ) (ts : ℚ)
    (entries : List Entry) : List Frame :=
  genFrames om (charsPerFrame om targetFrameCount entries) ts entries

/-- Displayed line of the live driver (useTypingAnimation.js `displayedLines`
elements `{ text, complete }`). -/
structure DisplayedLine where
  text : List Char
  complete : Bool
deriving DecidableEq

/-- DisplayState retained by `useMultiLineTyping`: `displayedLines`,
`currentLineIndex`, `isComplete`. -/
structure DriverState where
  displayedLines : List DisplayedLine
  currentLineIndex : ℕ
  isComplete : Bool
deriving DecidableEq

/-- `shouldTypeLine` (useTypingAnimation.js 59-66): outside instant mode every
line is typed; in instant mode a line is typed exactly when its `lineInfo`
entry exists and has `showPrompt`. -/
def shouldTypeLine (om : Mode) (lineInfo : List Entry) (idx : ℕ) : Bool :=
  if om ≠ Mode.instant then true
  else
    match lineInfo[idx]? with
    | some e => e.showPrompt
    | none => true

/-- Terminal state reached by the `animate` loop (useTypingAnimation.js 75-167)
at natural completion. Whether a line is typed (133-166) or shown instantly
(103-121), its processing ends with `displayedLines[lineIdx] = { text: full,
complete: true }`; if further lines remain, the driver waits `lineDelay`, then
increments `lineIdx` and `currentLineIndex` (81-91); on the last line it sets
`isComplete` without touching `currentLineIndex` (118-120, 162-165). The
wall-clock gating (`speed`, `lineDelay`) and the typed/instant classification
affect only the intermediate pacing, not this terminal state, so they are not
parameters here. -/
def animateLoop : List Entry → List DisplayedLine → ℕ → DriverState
  | [], d, cli => ⟨d, cli, true⟩
  | [e], d, cli => ⟨d ++ [⟨e.text, true⟩], cli, true⟩
  | e :: e2 :: rest, d, cli => animateLoop (e2 :: rest) (d ++ [⟨e.text, true⟩]) (cli + 1)

/-- Terminal DisplayState of the driver started from the empty display
(useTypingAnimation.js 169-173; the empty-lines early return on 52-56 yields
the same state as the loop on no entries). -/
def driverFinalState (entries : List Entry) : DriverState :=
  animateLoop entries [] 0

/-- DisplayState consumed by `createTerminalCanvas`/`drawTerminal`:
`{ lines, showCursor, cursorLineIndex }` (canvasRenderer.js 59). The source
defaults `cursorLineIndex` to -1, hence `ℤ`. -/
structure CanvasDisplayState where
  lines : List DLine
  showCursor : Bool
  cursorLineIndex : ℤ
deriving DecidableEq

/-- Display state `createFrame` passes for a timeline frame
(canvasRenderer.js 396-407): `showCursor: true` always. -/
def frameDisplayState (f : Frame) : CanvasDisplayState :=
  ⟨f.lines, true, (f.cursor : ℤ)⟩

/-- Condition under which `drawTerminal` draws a cursor glyph on display line
`k` of the painted content (canvasRenderer.js 176-179):
`showCursor && cursorLineIndex === lineIdx` inside the loop over `lines`. -/
def cursorDrawnOnLine (ds : CanvasDisplayState) (k : ℕ) : Bool :=
  ds.showCursor && ds.cursorLineIndex == (k : ℤ) && decide (k < ds.lines.length)

/-- Condition under which `drawTerminal` draws the cursor on the synthetic line
after the content (canvasRenderer.js 185-207):
`showCursor && cursorLineIndex >= lines.length`. -/
def cursorDrawnAtEnd (ds : CanvasDisplayState) : Bool :=
  ds.showCursor && decide ((ds.lines.length : ℤ) ≤ ds.cursorLineIndex)

/-- Font size after the auto-scaling block of `generateAnimationFrames`
(canvasRenderer.js 362-373): when the fit ratio is below 1 the adjusted size is
`Math.max(8, Math.floor(fontSize * fitRatio))`, otherwise the configured size
is kept. -/
def autoScaledFontSize (fontSize : ℕ) (fitRatio : ℚ) : ℕ :=
  if fitRatio < 1 then max 8 (Int.toNat ⌊(fontSize : ℚ) * fitRatio⌋) else fontSize

/-- Padding after the same auto-scaling block (canvasRenderer.js 366):
`Math.max(8, Math.floor(padding * fitRatio))` when the fit ratio is below 1. -/
def autoScaledPadding (padding : ℕ) (fitRatio : ℚ) : ℕ :=
  if fitRatio < 1 then max 8 (Int.toNat ⌊(padding : ℚ) * fitRatio⌋) else padding

/-- Centisecond delay written for one frame by `createGIF` (gifEncoder.js
515-519): `Math.max(2, Math.round(frame.delay / 10))`; Mathlib's `round` is
`⌊x + 1/2⌋`, exactly JS `Math.round`. -/
def gifFrameDelay (delayMs : ℚ) : ℤ :=
  max 2 (round (delayMs / 10))

/-- Delays written across a frame sequence by the `createGIF` loop
(gifEncoder.js 506-530), in order. -/
def createGIFDelays (frames : List Frame) : List ℤ :=
  frames.map fun f => gifFrameDelay f.delay

/-- Revealed text of display line `k`, empty when the line is not yet present. -/
def dText (d : List DLine) (k : ℕ) : List Char :=
  match d[k]? with
  | some l => l.text
  | none => []

/-- Full text of entry `k`, empty past the end. -/
def entryTextAt (entries : List Entry) (k : ℕ) : List Char :=
  match entries[k]? with
  | some e => e.text
  | none => []

/-- Frame `g` extends frame `f`: each line's revealed text grows by prefix. -/
def FrameLe (f g : Frame) : Prop :=
  ∀ k, dText f.lines k <+: dText g.lines k

/-- Every line revealed in `f` is a prefix of the corresponding entry's text. -/
def FitsEntries (entries : List Entry) (f : Frame) : Prop :=
  ∀ k, dText f.lines k <+: entryTextAt entries k

section Helpers

variable {α : Type}

lemma take_pref (n : ℕ) (l : List α) : l.take n <+: l :=
  List.take_prefix n l

lemma nil_pref (l : List α) : [] <+: l :=
  List.nil_prefix

lemma take_pref_take {l : List α} {m n : ℕ} (h : m ≤ n) : l.take m <+: l.take n := by
  have : (l.take n).take m = l.take m := by
    rw [List.take_take, Nat.min_eq_left h]
  rw [← this]
  exact take_pref m (l.take n)

lemma dText_nil (k : ℕ) : dText [] k = [] := by
  simp [dText]

lemma dText_past {d : List DLine} {k : ℕ} (h : d.length ≤ k) : dText d k = [] := by
  simp [dText, List.getElem?_eq_none h]

lemma dText_append_lt {d d' : List DLine} {k : ℕ} (h : k < d.length) :
    dText (d ++ d') k = dText d k := by
  simp [dText, List.getElem?_append_left h]

lemma dText_append_ge {d d' : List DLine} {k : ℕ} (h : d.length ≤ k) :
    dText (d ++ d') k = dText d' (k - d.length) := by
  simp [dText, List.getElem?_append_right h]

lemma dText_map_toDLine (l : List Entry) (k : ℕ) :
    dText (l.map toDLine) k = entryTextAt l k := by
  simp only [dText, entryTextAt, List.getElem?_map]
  cases l[k]? <;> simp [toDLine]

lemma entryTextAt_cons_succ (e : Entry) (l : List Entry) (i : ℕ) :
    entryTextAt (e :: l) (i + 1) = entryTextAt l i := by
  simp [entryTextAt]

lemma entryTextAt_past {l : List Entry} {k : ℕ} (h : l.length ≤ k) : entryTextAt l k = [] := by
  simp [entryTextAt, List.getElem?_eq_none h]

lemma frameLe_refl (f : Frame) : FrameLe f f :=
  fun _ => List.prefix_refl _

lemma frameLe_trans {f g h : Frame} (h1 : FrameLe f g) (h2 : FrameLe g h) : FrameLe f h :=
  fun k => (h1 k).trans (h2 k)

lemma dropWhile_ne_nil_of_mem {p : α → Bool} {l : List α} {x : α}
    (hx : x ∈ l) (hpx : p x = false) : l.dropWhile p ≠ [] := by
  intro hnil
  have := List.dropWhile_eq_nil_iff.mp hnil x hx
  simp [hpx] at this

lemma takeWhile_append_stop {p : α → Bool} {l m : List α} {x : α}
    (hx : x ∈ l) (hpx : p x = false) : (l ++ m).takeWhile p = l.takeWhile p := by
  rw [List.takeWhile_append]
  split
  · next hlen =>
    exfalso
    have heq : l.takeWhile p = l :=
      (List.takeWhile_prefix p).eq_of_length hlen
    have : p x = true := List.mem_takeWhile_imp (heq ▸ hx)
    simp [hpx] at this
  · rfl

lemma dropWhile_append_stop {p : α → Bool} {l m : List α} {x : α}
    (hx : x ∈ l) (hpx : p x = false) : (l ++ m).dropWhile p = l.dropWhile p ++ m := by
  rw [List.dropWhile_append]
  split
  · next hemp =>
    exfalso
    exact dropWhile_ne_nil_of_mem hx hpx (List.isEmpty_iff.mp hemp)
  · rfl

lemma getLast_of_dropWhile {p : α → Bool} {l : List α} (h : l.dropWhile p ≠ []) :
    (l.dropWhile p).getLast? = l.getLast? := by
  conv_rhs => rw [← List.takeWhile_append_dropWhile p l]
  rw [List.getLast?_append, List.getLast?_eq_getLast _ h, Option.or_some]

lemma getLast_of_cons_of_mem {x : α} {l : List α} (h : l ≠ []) :
    (x :: l).getLast? = l.getLast? := by
  cases l with
  | nil => exact absurd rfl h
  | cons y t => simp [List.getLast?_cons_cons]

end Helpers

lemma pauseFrames_nil (d : List DLine) : pauseFrames d [] = [] := by
  simp [pauseFrames]

lemma pauseFrames_of_ne (d : List DLine) {l : List Entry} (h : l ≠ []) :
    pauseFrames d l = [⟨d, d.length, 150⟩] := by
  simp [pauseFrames, h]

/-- Bookkeeping fact for the driver loop: on a non-empty entry list started
from display `d` and cursor `cli`, `animateLoop` ends with every entry's full
text marked complete appended to `d`, `currentLineIndex` advanced once per
line transition (so by `length - 1`), and `isComplete` set. -/
lemma animateLoop_spec : ∀ (E : List Entry) (d : List DisplayedLine) (cli : ℕ), E ≠ [] →
    animateLoop E d cli =
      ⟨d ++ E.map (fun e => ⟨e.text, true⟩), cli + (E.length - 1), true⟩ := by
  intro E
  induction E with
  | nil => intro d cli h; exact absurd rfl h
  | cons e rest ih =>
    intro d cli _
    cases rest with
    | nil => simp [animateLoop]
    | cons e2 rest2 =>
      rw [animateLoop, ih _ _ (by simp)]
      simp only [DriverState.mk.injEq, List.map_cons, List.length_cons]
      refine ⟨by simp, by omega, trivial⟩

/-- Last frame of the generator loop: the final resting frame, with every
remaining entry fully revealed and the cursor one past the content. -/
lemma genFramesLoop_getLast (om : Mode) (cpf : ℕ) (ts : ℚ) :
    ∀ (n : ℕ) (rest : List Entry), rest.length ≤ n → ∀ (d : List DLine) (cc : ℕ),
      (genFramesLoop om cpf ts d cc rest).getLast? =
        some ⟨d ++ rest.map toDLine, d.length + rest.length, 2000⟩ := by
  intro n
  induction n with
  | zero =>
    intro rest hlen d cc
    have hnil : rest = [] := List.eq_nil_of_length_eq_zero (Nat.le_zero.mp hlen)
    subst hnil
    simp [genFramesLoop]
  | succ n ih =>
    intro rest hlen d cc
    cases rest with
    | nil => simp [genFramesLoop]
    | cons e rest' =>
      rw [genFramesLoop]
      by_cases hins : shouldBeInstant om e = true
      · rw [if_pos hins]
        set q := rest'.takeWhile (shouldBeInstant om) with hq
        set r := rest'.dropWhile (shouldBeInstant om) with hr
        have hrlen : r.length ≤ n := by
          have h1 : r.length ≤ rest'.length :=
            List.Sublist.length_le (List.dropWhile_sublist _)
          simp only [List.length_cons] at hlen
          omega
        have hIH := ih r hrlen (d ++ (e :: q).map toDLine) cc
        rw [List.getLast?_cons, List.getLast?_append, hIH]
        simp only [Option.or_some, Option.getD_some]
        have hsplit : q ++ r = rest' := List.takeWhile_append_dropWhile _ _
        have hlen2 : q.length + r.length = rest'.length := by
          rw [← List.length_append, hsplit]
        have happ : (e :: q) ++ r = e :: rest' := by simp [hsplit]
        rw [List.append_assoc, ← List.map_append, happ]
        simp only [Option.some.injEq, Frame.mk.injEq, List.length_append, List.length_map,
          List.length_cons, true_and, and_true]
        omega
      · rw [if_neg hins]
        have hrlen : rest'.length ≤ n := by
          simp only [List.length_cons] at hlen
          omega
        have hIH := ih rest' hrlen (d ++ [toDLine e]) (cc + e.text.length)
        rw [List.getLast?_append, List.getLast?_append, hIH]
        simp only [Option.or_some]
        have happ : d ++ [toDLine e] ++ List.map toDLine rest' = d ++ List.map toDLine (e :: rest') := by
          simp
        rw [happ]
        simp only [Option.some.injEq, Frame.mk.injEq, List.length_append, List.length_map,
          List.length_cons, List.length_nil, true_and, and_true]
        omega

/-- The generator loop always emits at least its final frame. -/
lemma genFramesLoop_ne_nil (om : Mode) (cpf : ℕ) (ts : ℚ) (d : List DLine) (cc : ℕ)
    (rest : List Entry) : genFramesLoop om cpf ts d cc rest ≠ [] := by
  intro h
  have := genFramesLoop_getLast om cpf ts rest.length rest (Nat.le_refl _) d cc
  rw [h] at this
  simp at this

/-- Head of the generator loop on a maximal leading instant run: one batched
frame revealing the whole run at once, then (when entries remain) the 150 ms
inter-line frame, then the loop on the remainder. -/
lemma genFramesLoop_batch (om : Mode) (cpf : ℕ) (ts : ℚ) (run post : List Entry)
    (d : List DLine) (cc : ℕ) (hrun : run ≠ [])
    (hinst : ∀ e ∈ run, shouldBeInstant om e = true)
    (hpost : ∀ y, post.head? = some y → shouldBeInstant om y = false) :
    genFramesLoop om cpf ts d cc (run ++ post) =
      ⟨d ++ run.map toDLine, d.length + run.length - 1, batchDelay run.length⟩ ::
        (pauseFrames (d ++ run.map toDLine) post ++
          genFramesLoop om cpf ts (d ++ run.map toDLine) cc post) := by
  cases run with
  | nil => exact absurd rfl hrun
  | cons e run' =>
    have hrun' : ∀ a ∈ run', shouldBeInstant om a = true := by
      intro a ha
      exact hinst a (List.mem_cons_of_mem _ ha)
    have htake : (run' ++ post).takeWhile (shouldBeInstant om) = run' := by
      rw [List.takeWhile_append_of_pos hrun']
      cases post with
      | nil => simp
      | cons y t =>
        rw [List.takeWhile_cons_of_neg (by simp [hpost y rfl]), List.append_nil]
    have hdrop : (run' ++ post).dropWhile (shouldBeInstant om) = post := by
      rw [List.dropWhile_append_of_pos hrun']
      cases post with
      | nil => simp
      | cons y t =>
        rw [List.dropWhile_cons_of_neg (by simp [hpost y rfl])]
    rw [List.cons_append, genFramesLoop, if_pos (hinst e (List.mem_cons_self _ _)),
      htake, hdrop]
    simp only [List.cons.injEq, Frame.mk.injEq, List.length_append, List.length_map,
      List.length_cons, true_and, and_true]

/-- Processing a non-empty entry prefix whose final entry is not instant:
the generator loop emits some frames, then the 150 ms inter-line frame with
exactly the prefix fully revealed, then continues on the remaining entries
from the enlarged display. -/
lemma genFramesLoop_prefix_run (om : Mode) (cpf : ℕ) (ts : ℚ) :
    ∀ (n : ℕ) (pre : List Entry), pre.length ≤ n → pre ≠ [] →
      (∀ x, pre.getLast? = some x → shouldBeInstant om x = false) →
      ∀ (rest : List Entry), rest ≠ [] → ∀ (d : List DLine) (cc : ℕ),
      ∃ (F : List Frame) (cc2 : ℕ),
        genFramesLoop om cpf ts d cc (pre ++ rest) =
          F ++ ⟨d ++ pre.map toDLine, d.length + pre.length, 150⟩ ::
            genFramesLoop om cpf ts (d ++ pre.map toDLine) cc2 rest := by
  intro n
  induction n with
  | zero =>
    intro pre hlen hne
    exact absurd (List.eq_nil_of_length_eq_zero (Nat.le_zero.mp hlen)) hne
  | succ n ih =>
    intro pre hlen hne hlast rest hrest d cc
    cases pre with
    | nil => exact absurd rfl hne
    | cons e pre' =>
      by_cases hins : shouldBeInstant om e = true
      · -- instant head: the maximal instant run ends strictly inside pre'
        have hpre' : pre' ≠ [] := by
          intro hnil
          subst hnil
          have h0 := hlast e (by simp)
          rw [h0] at hins
          exact absurd hins (by simp)
        have hcons : (e :: pre').getLast? = pre'.getLast? := getLast_of_cons_of_mem hpre'
        have hxlast : pre'.getLast? = some (pre'.getLast hpre') :=
          List.getLast?_eq_getLast _ hpre'
        have hx : shouldBeInstant om (pre'.getLast hpre') = false := by
          apply hlast
          rw [hcons]
          exact hxlast
        have hxmem : pre'.getLast hpre' ∈ pre' := List.getLast_mem hpre'
        have htake : (pre' ++ rest).takeWhile (shouldBeInstant om) =
            pre'.takeWhile (shouldBeInstant om) := takeWhile_append_stop hxmem hx
        have hdrop : (pre' ++ rest).dropWhile (shouldBeInstant om) =
            pre'.dropWhile (shouldBeInstant om) ++ rest := dropWhile_append_stop hxmem hx
        have hrne : pre'.dropWhile (shouldBeInstant om) ≠ [] :=
          dropWhile_ne_nil_of_mem hxmem hx
        have hsplit : pre'.takeWhile (shouldBeInstant om) ++
            pre'.dropWhile (shouldBeInstant om) = pre' :=
          List.takeWhile_append_dropWhile _ _
        have hrlen : (pre'.dropWhile (shouldBeInstant om)).length ≤ n := by
          have h1 : (pre'.dropWhile (shouldBeInstant om)).length ≤ pre'.length :=
            List.Sublist.length_le (List.dropWhile_sublist _)
          simp only [List.length_cons] at hlen
          omega
        have hrlast : ∀ x, (pre'.dropWhile (shouldBeInstant om)).getLast? = some x →
            shouldBeInstant om x = false := by
          intro x hxl
          apply hlast
          rw [hcons, ← getLast_of_dropWhile hrne]
          exact hxl
        obtain ⟨F', cc', hF'⟩ := ih _ hrlen hrne hrlast rest hrest
          (d ++ ((e :: pre'.takeWhile (shouldBeInstant om)).map toDLine)) cc
        have hrr : pre'.dropWhile (shouldBeInstant om) ++ rest ≠ [] := by
          intro hnil
          exact hrne (List.append_eq_nil.mp hnil).1
        rw [List.cons_append, genFramesLoop, if_pos hins]
        simp only [htake, hdrop, pauseFrames_of_ne _ hrr]
        rw [hF']
        have hq : (e :: pre'.takeWhile (shouldBeInstant om)) ++
            pre'.dropWhile (shouldBeInstant om) = e :: pre' := by
          rw [List.cons_append, hsplit]
        have hd2 : d ++ (e :: pre'.takeWhile (shouldBeInstant om)).map toDLine ++
            (pre'.dropWhile (shouldBeInstant om)).map toDLine =
            d ++ (e :: pre').map toDLine := by
          rw [List.append_assoc, ← List.map_append, hq]
        have hql : (pre'.takeWhile (shouldBeInstant om)).length +
            (pre'.dropWhile (shouldBeInstant om)).length = pre'.length := by
          rw [← List.length_append, hsplit]
        have hcur : (d ++ (e :: pre'.takeWhile (shouldBeInstant om)).map toDLine).length +
            (pre'.dropWhile (shouldBeInstant om)).length =
            d.length + (e :: pre').length := by
          simp only [List.length_append, List.length_map, List.length_cons]
          omega
        rw [hd2, hcur]
        exact ⟨⟨d ++ (e :: pre'.takeWhile (shouldBeInstant om)).map toDLine,
            (d ++ (e :: pre'.takeWhile (shouldBeInstant om)).map toDLine).length - 1,
            batchDelay (e :: pre'.takeWhile (shouldBeInstant om)).length⟩ ::
          ⟨d ++ (e :: pre'.takeWhile (shouldBeInstant om)).map toDLine,
            (d ++ (e :: pre'.takeWhile (shouldBeInstant om)).map toDLine).length, 150⟩ :: F',
          cc', by simp⟩
      · -- typed head
        rw [List.cons_append, genFramesLoop, if_neg hins]
        cases hpre : pre' with
        | nil =>
          subst hpre
          simp only [List.nil_append, pauseFrames_of_ne _ hrest]
          refine ⟨typedLineFrames d e cc cpf ts, cc + e.text.length, ?_⟩
          simp
        | cons e2 pre2 =>
          rw [← hpre]
          have hpne : pre' ≠ [] := by rw [hpre]; simp
          have hne2 : pre' ++ rest ≠ [] := by
            intro hnil
            exact hpne (List.append_eq_nil.mp hnil).1
          have hlen2 : pre'.length ≤ n := by
            simp only [List.length_cons] at hlen
            omega
          have hlast2 : ∀ x, pre'.getLast? = some x → shouldBeInstant om x = false := by
            intro x hxl
            apply hlast
            rw [getLast_of_cons_of_mem hpne]
            exact hxl
          obtain ⟨F', cc', hF'⟩ := ih pre' hlen2 hpne hlast2 rest hrest
            (d ++ [toDLine e]) (cc + e.text.length)
          simp only [pauseFrames_of_ne _ hne2]
          rw [hF']
          have hd2 : d ++ [toDLine e] ++ pre'.map toDLine =
              d ++ (e :: pre').map toDLine := by
            simp
          have hcur : (d ++ [toDLine e]).length + pre'.length =
              d.length + (e :: pre').length := by
            simp only [List.length_append, List.length_cons, List.length_nil]
            omega
          rw [hd2, hcur]
          exact ⟨typedLineFrames d e cc cpf ts ++
            ⟨d ++ [toDLine e], (d ++ [toDLine e]).length, 150⟩ :: F', cc', by simp⟩

/-- Claim C1, counterexample: for a single Output entry the driver's terminal
DisplayState keeps `currentLineIndex = 0` (the last line's index — the animate
loop only advances it on a line-to-line transition), while the generator's last
frame has cursor 1 (one past the last line), so the two terminal states are not
structurally equal. -/
theorem claim1_counterexample :
    (driverFinalState [⟨EKind.output, ['a'], false, false⟩]).currentLineIndex = 0 ∧
    (genFrames Mode.typing 1 50 [⟨EKind.output, ['a'], false, false⟩]).getLast? =
      some ⟨[⟨['a'], false⟩], 1, 2000⟩ ∧
    (0 : ℕ) ≠ 1 := by
  refine ⟨by decide, ?_, by decide⟩
  rw [genFrames, getLast_of_cons_of_mem (genFramesLoop_ne_nil _ _ _ _ _ _),
    genFramesLoop_getLast Mode.typing 1 50 1 _ (by decide) [] 0]
  simp [toDLine]

/-- Claim C1, amended: for every non-empty entry list and any parameters, the
driver's terminal DisplayState and the generator's last frame agree on the
per-line texts (all lines fully revealed, the driver marking each complete),
but the cursor positions differ by one: the generator's final frame has the
cursor one past the last line (`E.length`) while the driver's terminal
`currentLineIndex` stays on the last line (`E.length - 1`). -/
theorem claim1_amended (om : Mode) (cpf : ℕ) (ts : ℚ) (E : List Entry) (hne : E ≠ []) :
    driverFinalState E = ⟨E.map (fun e => ⟨e.text, true⟩), E.length - 1, true⟩ ∧
    (genFrames om cpf ts E).getLast? = some ⟨E.map toDLine, E.length, 2000⟩ ∧
    (E.map (fun e => (⟨e.text, true⟩ : DisplayedLine))).map DisplayedLine.text =
      (E.map toDLine).map DLine.text := by
  refine ⟨?_, ?_, ?_⟩
  · rw [driverFinalState, animateLoop_spec E [] 0 hne]
    simp
  · rw [genFrames, getLast_of_cons_of_mem (genFramesLoop_ne_nil _ _ _ _ _ _),
      genFramesLoop_getLast om cpf ts E.length E (Nat.le_refl _) [] 0]
    simp
  · simp [toDLine]

/-- Witness for the amended claim C1 at a concrete one-entry list. -/
theorem claim1_witness :
    driverFinalState [⟨EKind.output, ['b'], false, false⟩] =
      ⟨([⟨EKind.output, ['b'], false, false⟩] : List Entry).map (fun e => ⟨e.text, true⟩),
        ([⟨EKind.output, ['b'], false, false⟩] : List Entry).length - 1, true⟩ ∧
    (genFrames Mode.typing 1 50 [⟨EKind.output, ['b'], false, false⟩]).getLast? =
      some ⟨([⟨EKind.output, ['b'], false, false⟩] : List Entry).map toDLine,
        ([⟨EKind.output, ['b'], false, false⟩] : List Entry).length, 2000⟩ ∧
    (([⟨EKind.output, ['b'], false, false⟩] : List Entry).map
        (fun e => (⟨e.text, true⟩ : DisplayedLine))).map DisplayedLine.text =
      (([⟨EKind.output, ['b'], false, false⟩] : List Entry).map toDLine).map DLine.text :=
  claim1_amended Mode.typing 1 50 [⟨EKind.output, ['b'], false, false⟩] (by simp)

/-- Claim C2, counterexample: with `outputMode = 'typing'` and a single Output
entry whose `instant` flag is set by the `!!` marker, the generator classifies
the line as instant and reveals it in one batched frame, while the driver's
`shouldTypeLine` still types it; so the two classification rules are not the
same, refuting the claimed equivalence. -/
theorem claim2_counterexample :
    shouldBeInstant Mode.typing ⟨EKind.output, ['a', 'b'], false, true⟩ = true ∧
    shouldTypeLine Mode.typing [⟨EKind.output, ['a', 'b'], false, true⟩] 0 = true ∧
    ¬ ((shouldTypeLine Mode.typing [⟨EKind.output, ['a', 'b'], false, true⟩] 0 = false) ↔
        (shouldBeInstant Mode.typing ⟨EKind.output, ['a', 'b'], false, true⟩ = true)) ∧
    genFrames Mode.typing 1 50 [⟨EKind.output, ['a', 'b'], false, true⟩] =
      [⟨[], 0, 500⟩, ⟨[⟨['a', 'b'], false⟩], 0, batchDelay 1⟩,
        ⟨[⟨['a', 'b'], false⟩], 1, 2000⟩] := by
  refine ⟨by decide, by decide, by decide, ?_⟩
  simp [genFrames, genFramesLoop, shouldBeInstant, toDLine, pauseFrames]

/-- Claim C2, amended: the driver reveals line `i` instantly iff
`outputMode = 'instant'` and the entry is an Output line (`showPrompt` false);
the generator reveals it instantly iff additionally-or-instead the entry's own
`instant` flag is set. The two rules agree exactly when the `instant` flag is
not the deciding factor; in particular with `outputMode = 'typing'` an Output
line marked instant by the `!!` marker is batched by the generator but typed
character-by-character by the driver. -/
theorem claim2_amended (om : Mode) (E : List Entry) (i : ℕ) (e : Entry)
    (h : E[i]? = some e) :
    ((shouldTypeLine om E i = false) ↔ (om = Mode.instant ∧ e.showPrompt = false)) ∧
    (shouldBeInstant om e = true ↔
      ((om = Mode.instant ∧ e.showPrompt = false) ∨ e.instant = true)) := by
  constructor
  · cases om <;> simp [shouldTypeLine, h]
  · cases om <;> cases hsp : e.showPrompt <;> cases hin : e.instant <;>
      simp [shouldBeInstant, hsp, hin]

/-- Witness for the amended claim C2 at a concrete entry. -/
theorem claim2_witness :
    ((shouldTypeLine Mode.typing [⟨EKind.output, ['a'], false, true⟩] 0 = false) ↔
      (Mode.typing = Mode.instant ∧
        (⟨EKind.output, ['a'], false, true⟩ : Entry).showPrompt = false)) ∧
    (shouldBeInstant Mode.typing ⟨EKind.output, ['a'], false, true⟩ = true ↔
      ((Mode.typing = Mode.instant ∧
          (⟨EKind.output, ['a'], false, true⟩ : Entry).showPrompt = false) ∨
        (⟨EKind.output, ['a'], false, true⟩ : Entry).instant = true)) :=
  claim2_amended Mode.typing [⟨EKind.output, ['a'], false, true⟩] 0
    ⟨EKind.output, ['a'], false, true⟩ rfl

/-- Claim C3, counterexample: a Command line between `!!` markers still gets
`instant: false` from the parser (the command branch hard-codes it), so the
parser does not set the flag independent of kind, and the generator types the
command instead of revealing it in one frame. -/
theorem claim3_counterexample :
    parseLines [" !! ".data, " > ls".data, "!!".data] =
      [⟨EKind.command, "ls".data, true, false⟩] ∧
    (parseLines [" !! ".data, " > ls".data, "!!".data]).all (fun e => !e.instant) = true ∧
    genFrames Mode.typing 1 50 (parseLines [" !! ".data, " > ls".data, "!!".data]) =
      [⟨[], 0, 500⟩,
        ⟨[⟨['l'], true⟩], 0, max 30 50⟩,
        ⟨[⟨['l', 's'], true⟩], 0, max 30 50⟩,
        ⟨[⟨['l', 's'], true⟩], 1, 2000⟩] := by
  refine ⟨by decide, by decide, ?_⟩
  have hp : parseLines [" !! ".data, " > ls".data, "!!".data] =
      [⟨EKind.command, "ls".data, true, false⟩] := by decide
  rw [hp]
  simp [genFrames, genFramesLoop, shouldBeInstant, toDLine, typedLineFrames,
    pauseFrames, List.range_succ]

/-- Claim C3, amended: the parser sets the `instant` flag only on Output
entries; every Command entry it produces has `instant = false` (and
`showPrompt = true`), even inside a `!!` block, so the generator never
classifies a parsed Command entry as instant via its flag. -/
theorem claim3_amended (lines : List (List Char)) (b : Bool) (e : Entry)
    (hmem : e ∈ parseLinesAux b lines) (hkind : e.kind = EKind.command) :
    e.instant = false ∧ e.showPrompt = true ∧ ∀ om, shouldBeInstant om e = false := by
  induction lines generalizing b with
  | nil => simp [parseLinesAux] at hmem
  | cons l ls ih =>
    by_cases h1 : trimL l = ['!', '!']
    · rw [parseLinesAux, if_pos h1] at hmem
      exact ih _ hmem
    · by_cases h2 : (trimStartL l).head? = some '>'
      · rw [parseLinesAux, if_neg h1, if_pos h2] at hmem
        rcases List.mem_cons.mp hmem with hx | hx
        · subst hx
          refine ⟨rfl, rfl, ?_⟩
          intro om
          simp [shouldBeInstant]
        · exact ih _ hx
      · rw [parseLinesAux, if_neg h1, if_neg h2] at hmem
        rcases List.mem_cons.mp hmem with hx | hx
        · subst hx
          simp at hkind
        · exact ih _ hx

/-- Witness for the amended claim C3 at a concrete parse. -/
theorem claim3_witness :
    (⟨EKind.command, "ls".data, true, false⟩ : Entry).instant = false ∧
    (⟨EKind.command, "ls".data, true, false⟩ : Entry).showPrompt = true ∧
    shouldBeInstant Mode.typing ⟨EKind.command, "ls".data, true, false⟩ = false := by
  have h := claim3_amended ["!!".data, "> ls".data] false
    ⟨EKind.command, "ls".data, true, false⟩ (by decide) rfl
  exact ⟨h.1, h.2.1, h.2.2 Mode.typing⟩

/-- Claim C4, counterexample: for the empty entry list
`generateAnimationFrames` returns two frames, not one: the warm-up frame is
followed by the final resting frame pushed unconditionally after the loop. -/
theorem claim4_counterexample :
    generateAnimationFrames Mode.typing 40 50 [] = [⟨[], 0, 500⟩, ⟨[], 0, 2000⟩] ∧
    (generateAnimationFrames Mode.typing 40 50 []).length ≠ 1 := by
  have h : generateAnimationFrames Mode.typing 40 50 [] = [⟨[], 0, 500⟩, ⟨[], 0, 2000⟩] := by
    simp [generateAnimationFrames, genFrames, genFramesLoop, charsPerFrame, typedChars]
  exact ⟨h, by rw [h]; decide⟩

/-- Claim C4, amended: for the empty entry list the generator emits exactly two
frames: the 500 ms warm-up frame with an empty line set, and the 2000 ms final
frame (still empty, cursor 0) pushed after the loop; there are no typed or
instant frames between them. -/
theorem claim4_amended (om : Mode) (tf cpf : ℕ) (ts : ℚ) :
    generateAnimationFrames om tf ts [] = [⟨[], 0, 500⟩, ⟨[], 0, 2000⟩] ∧
    genFrames om cpf ts [] = [⟨[], 0, 500⟩, ⟨[], 0, 2000⟩] := by
  constructor
  · simp [generateAnimationFrames, genFrames, genFramesLoop, charsPerFrame, typedChars]
  · simp [genFrames, genFramesLoop]

/-- Claim C5: for a maximal run of `N` consecutive instant entries (the entry
before the run, if any, is not instant, and so is the entry after it), the
generator emits a single frame revealing all `N` lines at once — the frame
just before it contains none of the run's lines, the batch frame contains all
of them fully revealed — and that frame's hold duration is
`min(400, 150 + N * min(50, 200 / N))` milliseconds. -/
theorem claim5 (om : Mode) (cpf : ℕ) (ts : ℚ) (pre run post : List Entry)
    (hrun : run ≠ []) (hinst : ∀ e ∈ run, shouldBeInstant om e = true)
    (hpre : ∀ x, pre.getLast? = some x → shouldBeInstant om x = false)
    (hpost : ∀ y, post.head? = some y → shouldBeInstant om y = false) :
    ∃ (k : ℕ) (fa fb : Frame),
      (genFrames om cpf ts (pre ++ run ++ post))[k]? = some fa ∧
      (genFrames om cpf ts (pre ++ run ++ post))[k + 1]? = some fb ∧
      fa.lines.length = pre.length ∧
      fb.lines = (pre ++ run).map toDLine ∧
      fb.cursor = pre.length + run.length - 1 ∧
      fb.delay = min 400 (150 + (run.length : ℚ) * min 50 (200 / (run.length : ℚ))) := by
  have hbd : batchDelay run.length =
      min 400 (150 + (run.length : ℚ) * min 50 (200 / (run.length : ℚ))) := by
    rw [batchDelay, min_comm]
  by_cases hp0 : pre = []
  · subst hp0
    rw [List.nil_append]
    have hb := genFramesLoop_batch om cpf ts run post [] 0 hrun hinst hpost
    refine ⟨0, ⟨[], 0, 500⟩,
      ⟨([] : List DLine) ++ run.map toDLine,
        ([] : List DLine).length + run.length - 1, batchDelay run.length⟩,
      ?_, ?_, ?_, ?_, ?_, ?_⟩
    · rw [genFrames]
      exact List.getElem?_cons_zero
    · rw [genFrames, List.getElem?_cons_succ, hb]
      exact List.getElem?_cons_zero
    · simp
    · simp
    · simp
    · simp [hbd]
  · have hrp : run ++ post ≠ [] := by
      intro hnil
      exact hrun (List.append_eq_nil.mp hnil).1
    obtain ⟨F, cc2, hF⟩ := genFramesLoop_prefix_run om cpf ts pre.length pre
      (Nat.le_refl _) hp0 hpre (run ++ post) hrp [] 0
    have hb := genFramesLoop_batch om cpf ts run post ([] ++ pre.map toDLine) cc2
      hrun hinst hpost
    rw [genFrames, List.append_assoc, hF, hb]
    refine ⟨F.length + 1,
      ⟨([] : List DLine) ++ pre.map toDLine, ([] : List DLine).length + pre.length, 150⟩,
      ⟨(([] : List DLine) ++ pre.map toDLine) ++ run.map toDLine,
        (([] : List DLine) ++ pre.map toDLine).length + run.length - 1,
        batchDelay run.length⟩,
      ?_, ?_, ?_, ?_, ?_, ?_⟩
    · rw [List.getElem?_cons_succ, List.getElem?_append_right (Nat.le_refl _)]
      simp
    · rw [List.getElem?_cons_succ,
        List.getElem?_append_right (Nat.le_succ_of_le (Nat.le_refl _))]
      simp [Nat.add_sub_cancel_left]
    · simp
    · simp
    · simp
    · simp [hbd]

/-- Witness for claim C5: a typed command followed by a maximal run of two
instant output lines. -/
theorem claim5_witness :
    ∃ (k : ℕ) (fa fb : Frame),
      (genFrames Mode.typing 1 50
        ([⟨EKind.command, ['c'], true, false⟩] ++
          [⟨EKind.output, ['x'], false, true⟩, ⟨EKind.output, ['y'], false, true⟩] ++
          []))[k]? = some fa ∧
      (genFrames Mode.typing 1 50
        ([⟨EKind.command, ['c'], true, false⟩] ++
          [⟨EKind.output, ['x'], false, true⟩, ⟨EKind.output, ['y'], false, true⟩] ++
          []))[k + 1]? = some fb ∧
      fa.lines.length = ([⟨EKind.command, ['c'], true, false⟩] : List Entry).length ∧
      fb.lines = (([⟨EKind.command, ['c'], true, false⟩] ++
        [⟨EKind.output, ['x'], false, true⟩, ⟨EKind.output, ['y'], false, true⟩]) :
          List Entry).map toDLine ∧
      fb.cursor = ([⟨EKind.command, ['c'], true, false⟩] : List Entry).length +
        ([⟨EKind.output, ['x'], false, true⟩, ⟨EKind.output, ['y'], false, true⟩] :
          List Entry).length - 1 ∧
      fb.delay = min 400 (150 +
        ((([⟨EKind.output, ['x'], false, true⟩, ⟨EKind.output, ['y'], false, true⟩] :
            List Entry).length : ℚ)) * min 50
          (200 / ((([⟨EKind.output, ['x'], false, true⟩,
            ⟨EKind.output, ['y'], false, true⟩] : List Entry).length : ℚ)))) :=
  claim5 Mode.typing 1 50 [⟨EKind.command, ['c'], true, false⟩]
    [⟨EKind.output, ['x'], false, true⟩, ⟨EKind.output, ['y'], false, true⟩] []
    (by simp)
    (by decide)
    (by
      intro x hx
      simp only [List.getLast?_singleton, Option.some.injEq] at hx
      subst hx
      decide)
    (by
      intro y hy
      simp at hy)

/-- Claim C6: the parser scans lines in order with `inInstantBlock` initially
false; a line trimming to `!!` toggles the flag and emits nothing; a line whose
leading-whitespace-stripped content starts with `>` becomes a Command entry
with the marker and following whitespace stripped and `showPrompt = true`;
every other line becomes an Output entry with `instant = inInstantBlock`; no
other line is dropped (the output length equals the number of non-marker
lines); and Scenario A parses as stated. -/
theorem claim6 :
    (∀ line rest b, trimL line = ['!', '!'] →
        parseLinesAux b (line :: rest) = parseLinesAux (!b) rest) ∧
    (∀ line rest b, trimL line ≠ ['!', '!'] → (trimStartL line).head? = some '>' →
        parseLinesAux b (line :: rest) =
          ⟨EKind.command, trimStartL ((trimStartL line).drop 1), true, false⟩
            :: parseLinesAux b rest) ∧
    (∀ line rest b, trimL line ≠ ['!', '!'] → (trimStartL line).head? ≠ some '>' →
        parseLinesAux b (line :: rest) =
          ⟨EKind.output, line, false, b⟩ :: parseLinesAux b rest) ∧
    (∀ lines b, (parseLinesAux b lines).length =
        (lines.filter (fun l => decide (trimL l ≠ ['!', '!']))).length) ∧
    parseLines ["> whoami".data, "root".data] =
      [⟨EKind.command, "whoami".data, true, false⟩,
        ⟨EKind.output, "root".data, false, false⟩] := by
  refine ⟨?_, ?_, ?_, ?_, by decide⟩
  · intro line rest b h1
    rw [parseLinesAux, if_pos h1]
  · intro line rest b h1 h2
    rw [parseLinesAux, if_neg h1, if_pos h2]
  · intro line rest b h1 h2
    rw [parseLinesAux, if_neg h1, if_neg h2]
  · intro lines
    induction lines with
    | nil => intro b; simp [parseLinesAux]
    | cons l ls ih =>
      intro b
      by_cases h1 : trimL l = ['!', '!']
      · rw [parseLinesAux, if_pos h1]
        simp only [List.filter_cons, h1]
        rw [ih]
        simp
      · by_cases h2 : (trimStartL l).head? = some '>'
        · rw [parseLinesAux, if_neg h1, if_pos h2]
          simp only [List.filter_cons]
          rw [List.length_cons, ih b]
          simp [h1]
        · rw [parseLinesAux, if_neg h1, if_neg h2]
          simp only [List.filter_cons]
          rw [List.length_cons, ih b]
          simp [h1]

/-- Witness for claim C6 at concrete lines, one per parser rule. -/
theorem claim6_witness :
    parseLinesAux false [" !!".data] = parseLinesAux true [] ∧
    parseLinesAux false ["> x".data] =
      [⟨EKind.command, trimStartL ((trimStartL ("> x".data)).drop 1), true, false⟩] ∧
    parseLinesAux true ["y".data] = [⟨EKind.output, "y".data, false, true⟩] := by
  refine ⟨?_, ?_, ?_⟩
  · exact claim6.1 (" !!".data) [] false (by decide)
  · exact claim6.2.1 ("> x".data) [] false (by decide) (by decide)
  · exact claim6.2.2.1 ("y".data) [] true (by decide) (by decide)

/-- Appending display lines never shrinks any line's revealed text. -/
lemma extD_append (d d' : List DLine) (k : ℕ) : dText d k <+: dText (d ++ d') k := by
  rcases Nat.lt_or_ge k d.length with hk | hk
  · rw [dText_append_lt hk]
  · rw [dText_past hk]
    exact nil_pref _

/-- Text of the freshly appended display line. -/
lemma dText_snoc (d : List DLine) (x : DLine) : dText (d ++ [x]) d.length = x.text := by
  rw [dText_append_ge (Nat.le_refl _)]
  simp [dText]

lemma entryTextAt_of_drop {E l : List Entry} {m : ℕ} (h : E.drop m = l) (i : ℕ) :
    entryTextAt E (m + i) = entryTextAt l i := by
  unfold entryTextAt
  rw [← List.getElem?_drop, h]

lemma entryTextAt_append_lt {l m : List Entry} {i : ℕ} (h : i < l.length) :
    entryTextAt (l ++ m) i = entryTextAt l i := by
  simp [entryTextAt, List.getElem?_append_left h]

/-- Members of the inter-line push are the single 150 ms frame. -/
lemma pauseFrames_mem {d2 : List DLine} {l : List Entry} {f : Frame}
    (h : f ∈ pauseFrames d2 l) : f = ⟨d2, d2.length, 150⟩ := by
  by_cases hl : l = []
  · simp [pauseFrames, hl] at h
  · simp [pauseFrames, hl] at h
    exact h

/-- Members of the typing loop are snapshots of a positive take of the text. -/
lemma typedLineFrames_mem {d : List DLine} {e : Entry} {cc cpf : ℕ} {ts : ℚ} {f : Frame}
    (h : f ∈ typedLineFrames d e cc cpf ts) :
    ∃ j, 1 ≤ j ∧ j ≤ e.text.length ∧
      f = ⟨d ++ [⟨e.text.take j, e.showPrompt⟩], d.length, max 30 ts⟩ := by
  simp only [typedLineFrames, List.mem_filterMap, List.mem_range] at h
  obtain ⟨a, ha, hsome⟩ := h
  by_cases hc : (cc + a + 1) % cpf = 0 ∨ a + 1 = e.text.length
  · rw [if_pos hc] at hsome
    exact ⟨a + 1, by omega, by omega, (Option.some.inj hsome).symm⟩
  · rw [if_neg hc] at hsome
    exact absurd hsome (by simp)

/-- Snapshots of a longer take extend snapshots of a shorter take. -/
lemma snapFrame_le (d : List DLine) (e : Entry) {j j' : ℕ} (h : j ≤ j')
    (c c' : ℕ) (q q' : ℚ) :
    FrameLe ⟨d ++ [⟨e.text.take j, e.showPrompt⟩], c, q⟩
      ⟨d ++ [⟨e.text.take j', e.showPrompt⟩], c', q'⟩ := by
  intro k
  rcases Nat.lt_trichotomy k d.length with hk | hk | hk
  · rw [dText_append_lt hk, dText_append_lt hk]
  · rw [hk, dText_snoc, dText_snoc]
    exact take_pref_take h
  · have h1 : (d ++ [(⟨e.text.take j, e.showPrompt⟩ : DLine)]).length ≤ k := by
      simp
      omega
    rw [dText_past h1]
    exact nil_pref _

/-- Consecutive typing snapshots form a chain under `FrameLe`. -/
lemma typedLineFrames_pairwise (d : List DLine) (e : Entry) (cc cpf : ℕ) (ts : ℚ) :
    (typedLineFrames d e cc cpf ts).Pairwise FrameLe := by
  apply List.Pairwise.filterMap _ ?_ (List.pairwise_lt_range _)
  intro a a' hlt b hb b' hb'
  split at hb
  · simp only [Option.mem_def, Option.some.injEq] at hb
    subst hb
    split at hb'
    · simp only [Option.mem_def, Option.some.injEq] at hb'
      subst hb'
      exact snapFrame_le d e (by omega) _ _ _ _
    · simp at hb'
  · simp at hb

/-- Invariant of the generator loop: every emitted frame reveals, per line,
a prefix of the corresponding entry's full text; every emitted frame extends
the display the loop was entered with; and the emitted frames form a chain
under pointwise prefix extension. -/
lemma genFramesLoop_invariant (om : Mode) (cpf : ℕ) (ts : ℚ) :
    ∀ (n : ℕ) (rest : List Entry), rest.length ≤ n →
      ∀ (E : List Entry) (d : List DLine) (cc : ℕ),
        E.drop d.length = rest →
        (∀ k, dText d k <+: entryTextAt E k) →
        (∀ f ∈ genFramesLoop om cpf ts d cc rest,
            FitsEntries E f ∧ ∀ k, dText d k <+: dText f.lines k) ∧
        (genFramesLoop om cpf ts d cc rest).Pairwise FrameLe := by
  intro n
  induction n with
  | zero =>
    intro rest hlen E d cc hdrop hd
    have hnil : rest = [] := List.eq_nil_of_length_eq_zero (Nat.le_zero.mp hlen)
    subst hnil
    rw [genFramesLoop]
    constructor
    · intro f hf
      rw [List.mem_singleton] at hf
      subst hf
      exact ⟨hd, fun k => List.prefix_refl _⟩
    · simp
  | succ n ih =>
    intro rest hlen E d cc hdrop hd
    cases rest with
    | nil =>
      rw [genFramesLoop]
      constructor
      · intro f hf
        rw [List.mem_singleton] at hf
        subst hf
        exact ⟨hd, fun k => List.prefix_refl _⟩
      · simp
    | cons e rest' =>
      have he : entryTextAt E d.length = e.text := by
        have h0 := entryTextAt_of_drop hdrop 0
        simpa [entryTextAt] using h0
      by_cases hins : shouldBeInstant om e = true
      · -- instant branch: one batch frame, then pause, then the loop
        rw [genFramesLoop, if_pos hins]
        have hsplit : (e :: rest'.takeWhile (shouldBeInstant om)) ++
            rest'.dropWhile (shouldBeInstant om) = e :: rest' := by
          rw [List.cons_append, List.takeWhile_append_dropWhile]
        have hdropE : E.drop d.length =
            (e :: rest'.takeWhile (shouldBeInstant om)) ++
              rest'.dropWhile (shouldBeInstant om) := by
          rw [hdrop, hsplit]
        have hd2 : ∀ k,
            dText (d ++ (e :: rest'.takeWhile (shouldBeInstant om)).map toDLine) k <+:
              entryTextAt E k := by
          intro k
          rcases Nat.lt_or_ge k d.length with hk | hk
          · rw [dText_append_lt hk]
            exact hd k
          · rw [dText_append_ge hk, dText_map_toDLine]
            have hEk : entryTextAt E k =
                entryTextAt ((e :: rest'.takeWhile (shouldBeInstant om)) ++
                  rest'.dropWhile (shouldBeInstant om)) (k - d.length) := by
              have h1 := entryTextAt_of_drop hdropE (k - d.length)
              rw [← h1]
              congr 1
              omega
            rw [hEk]
            rcases Nat.lt_or_ge (k - d.length)
                (e :: rest'.takeWhile (shouldBeInstant om)).length with hk3 | hk3
            · rw [entryTextAt_append_lt hk3]
            · rw [entryTextAt_past hk3]
              exact nil_pref _
        have hdrop2 : E.drop
            (d ++ (e :: rest'.takeWhile (shouldBeInstant om)).map toDLine).length =
            rest'.dropWhile (shouldBeInstant om) := by
          rw [List.length_append, List.length_map, ← List.drop_drop, hdrop, ← hsplit,
            List.drop_left]
        have hrlen : (rest'.dropWhile (shouldBeInstant om)).length ≤ n := by
          have h1 : (rest'.dropWhile (shouldBeInstant om)).length ≤ rest'.length :=
            List.Sublist.length_le (List.dropWhile_sublist _)
          simp only [List.length_cons] at hlen
          omega
        obtain ⟨hIHa, hIHp⟩ := ih (rest'.dropWhile (shouldBeInstant om)) hrlen E
          (d ++ (e :: rest'.takeWhile (shouldBeInstant om)).map toDLine) cc hdrop2 hd2
        constructor
        · intro f hf
          rcases List.mem_cons.mp hf with hf | hf
          · subst hf
            exact ⟨hd2, extD_append _ _⟩
          · rcases List.mem_append.mp hf with hf | hf
            · have hfe := pauseFrames_mem hf
              subst hfe
              exact ⟨hd2, extD_append _ _⟩
            · refine ⟨(hIHa f hf).1, fun k => ?_⟩
              exact (extD_append _ _ k).trans ((hIHa f hf).2 k)
        · rw [List.pairwise_cons]
          constructor
          · intro g hg
            rcases List.mem_append.mp hg with hg | hg
            · have hge := pauseFrames_mem hg
              subst hge
              exact fun k => List.prefix_refl _
            · exact (hIHa g hg).2
          · rw [List.pairwise_append]
            refine ⟨?_, hIHp, ?_⟩
            · by_cases hr2 : rest'.dropWhile (shouldBeInstant om) = [] <;>
                simp [pauseFrames, hr2]
            · intro p hp g hg
              have hpe := pauseFrames_mem hp
              subst hpe
              exact (hIHa g hg).2
      · -- typed branch: snapshots, then pause, then the loop
        rw [genFramesLoop, if_neg hins]
        have hd2 : ∀ k, dText (d ++ [toDLine e]) k <+: entryTextAt E k := by
          intro k
          rcases Nat.lt_trichotomy k d.length with hk | hk | hk
          · rw [dText_append_lt hk]
            exact hd k
          · rw [hk, dText_snoc, he]
            exact List.prefix_refl _
          · have h1 : (d ++ [toDLine e]).length ≤ k := by
              simp
              omega
            rw [dText_past h1]
            exact nil_pref _
        have hdrop2 : E.drop (d ++ [toDLine e]).length = rest' := by
          rw [List.length_append]
          simp only [List.length_cons, List.length_nil]
          rw [← List.drop_drop, hdrop]
          simp
        have hrlen : rest'.length ≤ n := by
          simp only [List.length_cons] at hlen
          omega
        obtain ⟨hIHa, hIHp⟩ := ih rest' hrlen E (d ++ [toDLine e])
          (cc + e.text.length) hdrop2 hd2
        have hsnapd2 : ∀ j k, dText (d ++ [(⟨e.text.take j, e.showPrompt⟩ : DLine)]) k <+:
            dText (d ++ [toDLine e]) k := by
          intro j k
          rcases Nat.lt_trichotomy k d.length with hk | hk | hk
          · rw [dText_append_lt hk, dText_append_lt hk]
          · rw [hk, dText_snoc, dText_snoc]
            exact take_pref j e.text
          · have h1 : (d ++ [(⟨e.text.take j, e.showPrompt⟩ : DLine)]).length ≤ k := by
              simp
              omega
            rw [dText_past h1]
            exact nil_pref _
        constructor
        · intro f hf
          rcases List.mem_append.mp hf with hf | hf
          · obtain ⟨j, _, _, hfe⟩ := typedLineFrames_mem hf
            subst hfe
            refine ⟨fun k => ?_, fun k => ?_⟩
            · exact (hsnapd2 j k).trans (hd2 k)
            · exact extD_append _ _ k
          · rcases List.mem_append.mp hf with hf | hf
            · have hfe := pauseFrames_mem hf
              subst hfe
              exact ⟨hd2, extD_append _ _⟩
            · refine ⟨(hIHa f hf).1, fun k => ?_⟩
              exact (extD_append _ _ k).trans ((hIHa f hf).2 k)
        · rw [List.pairwise_append]
          refine ⟨typedLineFrames_pairwise d e cc cpf ts, ?_, ?_⟩
          · rw [List.pairwise_append]
            refine ⟨?_, hIHp, ?_⟩
            · by_cases hr2 : rest' = [] <;> simp [pauseFrames, hr2]
            · intro p hp g hg
              have hpe := pauseFrames_mem hp
              subst hpe
              exact (hIHa g hg).2
          · intro t ht g hg
            obtain ⟨j, _, _, hte⟩ := typedLineFrames_mem ht
            subst hte
            rcases List.mem_append.mp hg with hg | hg
            · have hge := pauseFrames_mem hg
              subst hge
              exact hsnapd2 j
            · intro k
              exact (hsnapd2 j k).trans ((hIHa g hg).2 k)

/-- Claim C7: across the ordered frame sequence of the generator, every line's
revealed text in each frame is a prefix of that entry's full text, and between
any two frames in order the revealed text per line grows by prefix — in
particular its length is non-decreasing and never exceeds the full length. -/
theorem claim7 (om : Mode) (cpf : ℕ) (ts : ℚ) (E : List Entry) :
    (∀ f ∈ genFrames om cpf ts E, ∀ k, dText f.lines k <+: entryTextAt E k) ∧
    (∀ (i j : ℕ) (fi fj : Frame), i ≤ j →
        (genFrames om cpf ts E)[i]? = some fi →
        (genFrames om cpf ts E)[j]? = some fj →
        ∀ k, dText fi.lines k <+: dText fj.lines k ∧
          (dText fi.lines k).length ≤ (dText fj.lines k).length) := by
  obtain ⟨ha, hp⟩ := genFramesLoop_invariant om cpf ts E.length E (Nat.le_refl _) E [] 0
    (by simp) (fun k => by rw [dText_nil]; exact nil_pref _)
  have hPW : (genFrames om cpf ts E).Pairwise FrameLe := by
    rw [genFrames, List.pairwise_cons]
    refine ⟨fun g hg k => ?_, hp⟩
    rw [show (⟨[], 0, 500⟩ : Frame).lines = [] from rfl, dText_nil]
    exact nil_pref _
  constructor
  · intro f hf
    rcases List.mem_cons.mp hf with hf | hf
    · subst hf
      intro k
      rw [show (⟨[], 0, 500⟩ : Frame).lines = [] from rfl, dText_nil]
      exact nil_pref _
    · exact (ha f hf).1
  · intro i j fi fj hij hi hj k
    rcases Nat.lt_or_ge i j with hlt | hge
    · obtain ⟨hib, hie⟩ := List.getElem?_eq_some_iff.mp hi
      obtain ⟨hjb, hje⟩ := List.getElem?_eq_some_iff.mp hj
      have hle := (List.pairwise_iff_getElem.mp hPW) i j hib hjb hlt
      rw [hie, hje] at hle
      exact ⟨hle k, (hle k).length_le⟩
    · have hije : i = j := by omega
      subst hije
      rw [hi] at hj
      have hfe : fi = fj := Option.some.inj hj
      subst hfe
      exact ⟨List.prefix_refl _, Nat.le_refl _⟩

/-- Witness for claim C7 on a single typed output entry: the first typing
snapshot fits the entry text, and the warm-up frame is extended by it. -/
theorem claim7_witness :
    (∀ k, dText ((⟨[⟨['a'], false⟩], 0, max 30 50⟩ : Frame)).lines k <+:
        entryTextAt [⟨EKind.output, ['a', 'b'], false, false⟩] k) ∧
    (∀ k, dText ((⟨[], 0, 500⟩ : Frame)).lines k <+:
        dText ((⟨[⟨['a'], false⟩], 0, max 30 50⟩ : Frame)).lines k ∧
      (dText ((⟨[], 0, 500⟩ : Frame)).lines k).length ≤
        (dText ((⟨[⟨['a'], false⟩], 0, max 30 50⟩ : Frame)).lines k).length) := by
  have h := claim7 Mode.typing 1 50 [⟨EKind.output, ['a', 'b'], false, false⟩]
  constructor
  · exact h.1 _ (by
      simp [genFrames, genFramesLoop, shouldBeInstant, toDLine, typedLineFrames,
        pauseFrames, List.range_succ])
  · exact h.2 0 1 _ _ (by omega)
      (by simp [genFrames])
      (by simp [genFrames, genFramesLoop, shouldBeInstant, toDLine, typedLineFrames,
        pauseFrames, List.range_succ])

/-- Claim C8, counterexample: in the export path the cursor is drawn purely
from `cursorLineIndex` (with `showCursor` hard-coded true by `createFrame`);
line completeness is never consulted. The batched instant frame for a single
instant Output entry carries the fully revealed line at index 0 and cursor 0,
and `drawTerminal` draws a cursor glyph on that fully revealed line. -/
theorem claim8_counterexample :
    (genFrames Mode.typing 1 50 [⟨EKind.output, "x".data, false, true⟩])[1]? =
      some ⟨[⟨"x".data, false⟩], 0, batchDelay 1⟩ ∧
    cursorDrawnOnLine (frameDisplayState ⟨[⟨"x".data, false⟩], 0, batchDelay 1⟩) 0 = true ∧
    dText [⟨"x".data, false⟩] 0 =
      entryTextAt [⟨EKind.output, "x".data, false, true⟩] 0 := by
  refine ⟨?_, by decide, by decide⟩
  have h : genFrames Mode.typing 1 50 [⟨EKind.output, "x".data, false, true⟩] =
      [⟨[], 0, 500⟩, ⟨[⟨"x".data, false⟩], 0, batchDelay 1⟩,
        ⟨[⟨"x".data, false⟩], 1, 2000⟩] := by
    simp [genFrames, genFramesLoop, shouldBeInstant, toDLine, pauseFrames]
  rw [h]
  rfl

/-- Claim C8, amended: for every export frame, `drawTerminal` draws a cursor on
display line `k` iff `k` equals the frame's `cursorLineIndex` and `k` is within
the painted lines — in particular on at most one line — regardless of whether
that line is fully revealed (the export display state carries no completeness
information at all). -/
theorem claim8_amended (f : Frame) (k : ℕ) :
    cursorDrawnOnLine (frameDisplayState f) k = true ↔
      (f.cursor = k ∧ k < f.lines.length) := by
  simp [cursorDrawnOnLine, frameDisplayState, Bool.and_eq_true, beq_iff_eq,
    Nat.cast_inj]

/-- Claim C9, counterexample: with a configured font size already at the floor
of 8 and a fit ratio below 1, the effective font size equals 8 and is not
strictly less than the configured size. -/
theorem claim9_counterexample :
    autoScaledFontSize 8 (1 / 2) = 8 ∧ ¬ (autoScaledFontSize 8 (1 / 2) < 8) := by
  norm_num [autoScaledFontSize]

/-- Claim C9, amended: when fixed target dimensions force a fit ratio below 1
and the configured font size is strictly above the legible floor of 8, the
effective font size is strictly less than the configured one and never below 8;
padding configured at or above its floor of 8 is likewise never scaled up. -/
theorem claim9_amended (fs p : ℕ) (r : ℚ) (h1 : r < 1) (h8 : 8 < fs) (hp : 8 ≤ p) :
    autoScaledFontSize fs r < fs ∧ 8 ≤ autoScaledFontSize fs r ∧
      autoScaledPadding p r ≤ p ∧ 8 ≤ autoScaledPadding p r := by
  have hfloor : ∀ m : ℕ, 0 < m → ⌊(m : ℚ) * r⌋ < (m : ℤ) := by
    intro m hm
    rw [Int.floor_lt]
    push_cast
    calc (m : ℚ) * r < (m : ℚ) * 1 := by
          exact mul_lt_mul_of_pos_left h1 (by exact_mod_cast hm)
      _ = (m : ℚ) := mul_one _
  have hfs := hfloor fs (by omega)
  have hpd := hfloor p (by omega)
  rw [autoScaledFontSize, autoScaledPadding, if_pos h1, if_pos h1]
  refine ⟨?_, le_max_left _ _, ?_, le_max_left _ _⟩
  · omega
  · omega

/-- Witness for the amended claim C9 at font size 16, padding 16, ratio 1/2. -/
theorem claim9_witness :
    autoScaledFontSize 16 (1 / 2) < 16 ∧ 8 ≤ autoScaledFontSize 16 (1 / 2) ∧
      autoScaledPadding 16 (1 / 2) ≤ 16 ∧ 8 ≤ autoScaledPadding 16 (1 / 2) :=
  claim9_amended 16 16 (1 / 2) (by norm_num) (by norm_num) (by norm_num)

/-- Claim C10: the delay `createGIF` writes for frame `i` is
`max(2, round(delay / 10))` centiseconds, so every exported frame is displayed
at least 2 cs = 20 ms and all displayed durations are whole multiples of
10 ms. -/
theorem claim10 (frames : List Frame) :
    (∀ (i : ℕ) (f : Frame), frames[i]? = some f →
        (createGIFDelays frames)[i]? = some (max 2 (round (f.delay / 10)))) ∧
    (∀ q ∈ createGIFDelays frames, 2 ≤ q ∧ 20 ≤ 10 * q) := by
  constructor
  · intro i f h
    simp [createGIFDelays, List.getElem?_map, h, gifFrameDelay]
  · intro q hq
    simp only [createGIFDelays, List.mem_map] at hq
    obtain ⟨f, _, rfl⟩ := hq
    have h2 : (2 : ℤ) ≤ gifFrameDelay f.delay := le_max_left _ _
    exact ⟨h2, by omega⟩

/-- Witness for claim C10 on a singleton frame list. -/
theorem claim10_witness :
    (createGIFDelays [⟨[], 0, 500⟩])[0]? =
      some (max 2 (round (((⟨[], 0, 500⟩ : Frame)).delay / 10))) ∧
    2 ≤ gifFrameDelay ((⟨[], 0, 500⟩ : Frame)).delay ∧
    20 ≤ 10 * gifFrameDelay ((⟨[], 0, 500⟩ : Frame)).delay := by
  refine ⟨(claim10 [⟨[], 0, 500⟩]).1 0 _ rfl, ?_, ?_⟩
  · exact ((claim10 [⟨[], 0, 500⟩]).2 _ (by simp [createGIFDelays])).1
  · exact ((claim10 [⟨[], 0, 500⟩]).2 _ (by simp [createGIFDelays])).2

end TermNova
